import Mathlib

/-!
Shallow embedding of the hybrid course-search engine of this repository
(`src/rag/search.py` and `src/rag/vector_store.py`).

Modelling conventions:
* Python floats are modelled as rationals (`ℚ`), i.e. exact real arithmetic;
  the properties below are algebraic score properties, not rounding claims.
* numpy arrays are modelled as `List ℚ`; `np.argsort` (ascending and
  deterministic, but unstable once the array exceeds numpy's ~16-element
  insertion-sort threshold) is modelled as sorting the index range by the
  lexicographic order on (value, index).  This model agrees with numpy exactly
  on arrays small enough to be insertion-sorted — in particular at every
  concrete input evaluated below — while for larger arrays the order among
  *tied* values is a definitional choice; accordingly, the general theorems
  below use the sort only through properties that hold under any correct
  by-value ordering (membership, permutation-of-range, values descending),
  never through the tie order.
* Python dicts holding course records are modelled as association lists
  `List (String × String)`; `c.get(k, "")` is `getStr`.
* `str.lower()` / `str.upper()` are modelled characterwise with the ASCII
  `Char.toLower` / `Char.toUpper` (the corpus codes and fields are ASCII).
* The sentence-transformer model (`SentenceTransformer.encode`) and the BM25
  scorer (`rank_bm25.BM25Okapi.get_scores`) are external library collaborators;
  they enter the model as opaque function-valued fields of `HybridSearch`.
* The filesystem read by `VectorStore.load` is modelled by the optional parsed
  contents of the two artifact files (`faiss.index`, `metadata.json`); a reader
  on a missing/unreadable file raises, modelled by `Except`.
-/

namespace CourseSearch

/-- A Python dict with string values, as an association list.  Fields used by
the search code: `course_code`, `title`, `description`, `department`,
`instructor`, `meeting_times`, `prerequisites`, `source`. -/
abbrev Course := List (String × String)

/-- Python `c.get(k, "")`: the value of field `k`, or the empty string when the field
is absent from the record. -/
def getStr (c : Course) (k : String) : String := ((c.lookup k).getD "")

/-- Characterwise ASCII model of Python `str.lower()`. -/
def pyLower (s : String) : String := ⟨s.data.map Char.toLower⟩

/-- Characterwise ASCII model of Python `str.upper()`. -/
def pyUpper (s : String) : String := ⟨s.data.map Char.toUpper⟩

/-- Function `normalize_course_code` (src/rag/search.py): `code.replace(" ", "").upper()`. -/
def normalize_course_code (code : String) : String :=
  pyUpper ⟨code.data.filter (fun c => c ≠ ' ')⟩

/-- The regex character class `[A-Za-z]` (code points 65–90 and 97–122). -/
def isLetterC (c : Char) : Bool :=
  (decide (65 ≤ c.toNat) && decide (c.toNat ≤ 90)) ||
  (decide (97 ≤ c.toNat) && decide (c.toNat ≤ 122))

/-- The regex character class `\d` restricted to `[0-9]` (code points 48–57;
Python `\d` also accepts other Unicode decimal digits, which no course code or
query in this corpus contains). -/
def isDigitC (c : Char) : Bool := decide (48 ≤ c.toNat) && decide (c.toNat ≤ 57)

/-- The regex character class `\s` of Python `re` on `str`: ASCII whitespace
plus the Unicode whitespace code points. -/
def isSpaceC (c : Char) : Bool :=
  decide (c.toNat = 32) || decide (c.toNat = 9) || decide (c.toNat = 10) ||
  decide (c.toNat = 13) || decide (c.toNat = 11) || decide (c.toNat = 12) ||
  decide (c.toNat = 28) || decide (c.toNat = 29) ||
  decide (c.toNat = 30) || decide (c.toNat = 31) ||
  decide (c.toNat = 0x85) || decide (c.toNat = 0xA0) || decide (c.toNat = 0x1680) ||
  (decide (0x2000 ≤ c.toNat) && decide (c.toNat ≤ 0x200A)) ||
  decide (c.toNat = 0x2028) || decide (c.toNat = 0x2029) ||
  decide (c.toNat = 0x202F) || decide (c.toNat = 0x205F) || decide (c.toNat = 0x3000)

/-- Matching `\s*(\d{4})` at the head of `cs`: skip the (deterministically
maximal) run of whitespace, then require four digit characters; on success
return the digit group (the regex keeps only the group, not the whitespace). -/
def matchSpacesDigits (cs : List Char) : Option (List Char) :=
  let rest := cs.dropWhile isSpaceC
  let ds := rest.take 4
  if ds.length = 4 ∧ ds.all isDigitC then some ds else none

/-- One backtracking attempt of `([A-Za-z]{2,4})\s*(\d{4})` with exactly `k`
letters consumed by the first group; on success returns group1 ++ group2. -/
def tryLetters (cs : List Char) (k : ℕ) : Option (List Char) :=
  let ls := cs.take k
  if ls.length = k ∧ ls.all isLetterC then
    (matchSpacesDigits (cs.drop k)).map (fun ds => ls ++ ds)
  else none

/-- Matching `([A-Za-z]{2,4})\s*(\d{4})` anchored at the head of `cs`: the
greedy quantifier tries four letters first, then backtracks to three, then
two. -/
def matchHere (cs : List Char) : Option (List Char) :=
  (tryLetters cs 4).or ((tryLetters cs 3).or (tryLetters cs 2))

/-- Python `re.search` semantics: try the anchored match at every start position, left
to right, and return the first success. -/
def reSearch : List Char → Option (List Char)
  | [] => none
  | c :: cs => (matchHere (c :: cs)).or (reSearch cs)

/-- Function `extract_course_code` (src/rag/search.py):
`re.search(r'([A-Za-z]{2,4})\s*(\d{4})', query)`, returning
`(match.group(1) + match.group(2)).upper()` on success and `None` otherwise.
A total function: it cannot raise on any input. -/
def extract_course_code (query : String) : Option String :=
  (reSearch query.data).map (fun t => pyUpper ⟨t⟩)

/-- Function `_tokenise` (src/rag/search.py): `text.lower().split()` — lower-case, then
split on whitespace runs, discarding empty pieces. -/
def tokenise (text : String) : List String :=
  (((pyLower text).data.splitOnP isSpaceC).filter (fun l => l ≠ [])).map
    (fun l => (⟨l⟩ : String))

/-- Minimum of a numpy vector (`scores.min()`; the callers only apply it to
nonempty vectors, where the base value is irrelevant). -/
def listMin : List ℚ → ℚ
  | [] => 0
  | x :: xs => xs.foldl min x

/-- Maximum of a numpy vector (`scores.max()`). -/
def listMax : List ℚ → ℚ
  | [] => 0
  | x :: xs => xs.foldl max x

/-- Function `_normalise` (src/rag/search.py): min-max normalise to [0, 1]; return zeros
(`np.zeros_like`) if all scores are equal. -/
def normalise (scores : List ℚ) : List ℚ :=
  let lo := listMin scores
  let hi := listMax scores
  if hi = lo then scores.map (fun _ => 0)
  else scores.map (fun x => (x - lo) / (hi - lo))

/-- Inner product of two embedding vectors (`sub_embs @ qv.T`). -/
def dot (u v : List ℚ) : ℚ := (List.zipWith (· * ·) u v).sum

/-- A FAISS `IndexFlatIP`: `ntotal` stored rows, `reconstruct i` returning the
stored embedding row `i`. -/
structure FaissIndex where
  ntotal : ℕ
  reconstruct : ℕ → List ℚ

/-- Class `VectorStore` (src/rag/vector_store.py): a FAISS index plus the parallel
course list. -/
structure VectorStore where
  index : FaissIndex
  courses : List Course

/-- The ways `VectorStore.load` can raise: `faiss.read_index` raises when the
index file is missing or unreadable, and `META_FILE.read_text` /
`json.loads` raise when the metadata file is missing or unparsable.  The
source defines no error type of its own (in particular no `CorpusUnavailable`);
these are the underlying readers' exceptions. -/
inductive LoadError where
  | indexReadFailed
  | metaReadFailed
deriving DecidableEq

/-- Method `VectorStore.load` (src/rag/vector_store.py):

    index   = faiss.read_index(str(INDEX_FILE))
    courses = json.loads(META_FILE.read_text(encoding="utf-8"))
    return cls(index, courses)

The filesystem is modelled by the optional parsed contents of the two files.
The source performs no comparison between `index.ntotal` and `len(courses)`:
any pair of readable artifacts is accepted. -/
def VectorStore.load (indexFile : Option FaissIndex) (metaFile : Option (List Course)) :
    Except LoadError VectorStore :=
  match indexFile with
  | none => .error .indexReadFailed
  | some index =>
    match metaFile with
    | none => .error .metaReadFailed
    | some courses => .ok ⟨index, courses⟩

/-- Class `HybridSearch` (src/rag/search.py).  `store` and `courses := store.courses`
are as in `__init__`; `encode` is the sentence-transformer model call
(`_get_model().encode`, an external collaborator returning the query embedding)
and `bm25_get_scores` is `BM25Okapi.get_scores` on the corpus built in
`__init__` (external library; one raw score per corpus row, as a function of
the query tokens). -/
structure HybridSearch where
  store : VectorStore
  encode : String → List ℚ
  bm25_get_scores : List String → List ℚ

/-- Assignment `self.courses = store.courses` of the constructor. -/
def HybridSearch.courses (hs : HybridSearch) : List Course := hs.store.courses

/-- One course record satisfies every filter criterion:
`all(c.get(k, "").lower() == v.lower() for k, v in filters.items())`. -/
def matchesFilters (c : Course) (filters : List (String × String)) : Bool :=
  filters.all (fun kv => pyLower (getStr c kv.1) == pyLower kv.2)

/-- The candidate index set of `HybridSearch.query`: all positions when
`filters` is falsy (`None` or `{}`), otherwise the positions whose record
satisfies every criterion. -/
def candidateIdx (courses : List Course) (filters : List (String × String)) : List ℕ :=
  if filters.isEmpty then List.range courses.length
  else (List.range courses.length).filter
    (fun i => matchesFilters (courses.getD i []) filters)

/-- Raw FAISS scores over the candidate set:
`(np.stack([reconstruct(i) for i in candidate_idx]) @ qv.T).flatten()`. -/
def HybridSearch.faissRaw (hs : HybridSearch) (text : String) (cand : List ℕ) : List ℚ :=
  cand.map (fun i => dot (hs.store.index.reconstruct i) (hs.encode text))

/-- Raw BM25 scores over the candidate set:
`np.array([all_bm25[i] for i in candidate_idx])`. -/
def HybridSearch.bm25Raw (hs : HybridSearch) (text : String) (cand : List ℕ) : List ℚ :=
  cand.map (fun i => (hs.bm25_get_scores (tokenise text)).getD i 0)

/-- Fusion `hybrid = alpha * faiss_norm + (1 - alpha) * bm25_norm`, elementwise. -/
def fuse (alpha : ℚ) (f b : List ℚ) : List ℚ :=
  List.zipWith (fun x y => alpha * x + (1 - alpha) * y) f b

/-- The predicate of the exact-match scan: position `g` of the corpus holds a
course whose normalised code equals the detected code. -/
def codeMatches (courses : List Course) (code : String) (g : ℕ) : Bool :=
  normalize_course_code (getStr (courses.getD g []) "course_code") == code

/-- Local `exact_match_idx`: when a code was detected, the first local candidate
index whose course code matches it (the `for … break` loop); otherwise none. -/
def exactIdx (courses : List Course) (cand : List ℕ) (detected : Option String) :
    Option ℕ :=
  match detected with
  | none => none
  | some code => cand.findIdx? (codeMatches courses code)

/-- The exact-match override `hybrid[local_id] = 1.0` applied to the fused
score vector (a no-op when no candidate matched). -/
def applyExact (hybrid : List ℚ) (idx : Option ℕ) : List ℚ :=
  match idx with
  | none => hybrid
  | some l => hybrid.set l 1

/-- The fused-and-overridden score vector of a query over a candidate set. -/
def HybridSearch.hybridFinal (hs : HybridSearch) (text : String) (alpha : ℚ)
    (cand : List ℕ) : List ℚ :=
  applyExact
    (fuse alpha (normalise (hs.faissRaw text cand)) (normalise (hs.bm25Raw text cand)))
    (exactIdx hs.courses cand (extract_course_code text))

/-- The order `np.argsort` sorts by, completed on ties by index to make the
model a total function.  The by-value part is faithful to numpy; the by-index
tie completion is exact for arrays within numpy's insertion-sort threshold
(all concrete inputs below) and is otherwise a definitional choice, since
numpy's introsort breaks ties in no documented order (see the module
comment) — so no general theorem relies on the tie order. -/
def argRel (xs : List ℚ) (i j : ℕ) : Prop :=
  xs.getD i 0 < xs.getD j 0 ∨ (xs.getD i 0 = xs.getD j 0 ∧ i ≤ j)

instance (xs : List ℚ) : DecidableRel (argRel xs) := fun i j => by
  unfold argRel; infer_instance

/-- Model of `np.argsort(hybrid)`: the index range sorted ascending by score. -/
def argsort (xs : List ℚ) : List ℕ :=
  List.insertionSort (argRel xs) (List.range xs.length)

/-- Selection `top_local = np.argsort(hybrid)[::-1][:top_k]`. -/
def topLocal (hybrid : List ℚ) (top_k : ℕ) : List ℕ :=
  ((argsort hybrid).reverse).take top_k

/-- One returned result: `dict(self.courses[global_id])` — a copy of the stored
record — decorated with the four added keys `_faiss_score`, `_bm25_score`,
`_hybrid_score`, `_exact_match`. -/
structure ScoredCourse where
  course : Course
  faiss_score : ℚ
  bm25_score : ℚ
  hybrid_score : ℚ
  exact_match : Bool
deriving DecidableEq

/-- One iteration of the results loop of `HybridSearch.query`:
`course = dict(self.courses[candidate_idx[local_id]])` (a copy of the stored
record) with the four score keys filled in from the normalised and fused score
vectors at local index `l`. -/
def HybridSearch.mkResult (hs : HybridSearch) (text : String) (alpha : ℚ)
    (cand : List ℕ) (l : ℕ) : ScoredCourse :=
  { course := hs.courses.getD (cand.getD l 0) []
    faiss_score := (normalise (hs.faissRaw text cand)).getD l 0
    bm25_score := (normalise (hs.bm25Raw text cand)).getD l 0
    hybrid_score := (hs.hybridFinal text alpha cand).getD l 0
    exact_match := exactIdx hs.courses cand (extract_course_code text) == some l }

/-- Method `HybridSearch.query` (src/rag/search.py): detect a course code, filter the
candidate set, score densely and lexically, min-max normalise each vector,
fuse with weight `alpha`, apply the exact-match override, sort descending and
truncate to `top_k`, and return the scored results with the detected code. -/
def HybridSearch.query (hs : HybridSearch) (text : String) (top_k : ℕ)
    (alpha : ℚ) (filters : List (String × String)) :
    List ScoredCourse × Option String :=
  let detected := extract_course_code text
  let cand := candidateIdx hs.courses filters
  if cand = [] then ([], detected)
  else
    (((topLocal (hs.hybridFinal text alpha cand) top_k).map
      (hs.mkResult text alpha cand)), detected)

/-- State-threaded form of `HybridSearch.query`.  The Python method assigns to
no field of `self` (nor of `self.store`): its only writes are to the per-query
locals `hybrid`, `course` and `results`.  Its faithful state-threaded embedding
therefore returns the receiver unchanged alongside the value `query` computes. -/
def HybridSearch.queryS (hs : HybridSearch) (text : String) (top_k : ℕ)
    (alpha : ℚ) (filters : List (String × String)) :
    (List ScoredCourse × Option String) × HybridSearch :=
  (hs.query text top_k alpha filters, hs)

/-- Declarative form of the identifier pattern, following the spec's words: a
string made of two to four letters, then optional whitespace, then exactly four
digits.  Used to state what `extract_course_code` extracts. -/
def PatMatch (s : List Char) : Prop :=
  ∃ ls ws ds, s = ls ++ ws ++ ds ∧
    2 ≤ ls.length ∧ ls.length ≤ 4 ∧ ls.all isLetterC = true ∧
    ws.all isSpaceC = true ∧ ds.length = 4 ∧ ds.all isDigitC = true

/-! ### Concrete instances used by counterexamples and witnesses -/

/-- Corpus record: the course the exact-match override will hit. -/
def courseExact : Course := [("course_code", "BBBB2222"), ("department", "Computer Science")]

/-- Corpus record: a course that maximises both raw score vectors. -/
def courseTop : Course := [("course_code", "AAAA1111"), ("department", "Mathematics")]

/-- A two-course search state in which the non-matching candidate attains both
raw maxima (dense 2 vs 1, lexical 2 vs 1), so its fused score is
`0.5·1 + 0.5·1 = 1.0`, tying the exact-match override's forced score. -/
def hsX1 : HybridSearch :=
  { store := { index := { ntotal := 2, reconstruct := fun i => if i = 0 then [1] else [2] },
               courses := [courseExact, courseTop] }
    encode := fun _ => [1]
    bm25_get_scores := fun _ => [1, 2] }

/-- Two records used for the tie-ordering counterexample. -/
def courseK1 : Course := [("course_code", "K1")]

/-- Second record of the tie-ordering counterexample. -/
def courseK2 : Course := [("course_code", "K2")]

/-- A two-course search state in which every raw score is identical, so both
candidates' fused scores tie at 0. -/
def hsX2 : HybridSearch :=
  { store := { index := { ntotal := 2, reconstruct := fun _ => [] },
               courses := [courseK1, courseK2] }
    encode := fun _ => []
    bm25_get_scores := fun _ => [] }

/-- A parsed index artifact with two rows, used to exercise `VectorStore.load`
against a one-record metadata artifact. -/
def idxX3 : FaissIndex := { ntotal := 2, reconstruct := fun _ => [] }

/-- A one-record metadata artifact (row count 1 ≠ 2). -/
def metaX3 : List Course := [[("course_code", "CSCI0320")]]

/-- A small two-course search state used by several witnesses. -/
def hsW : HybridSearch :=
  { store := { index := { ntotal := 2, reconstruct := fun i => if i = 0 then [1] else [2] },
               courses := [[("course_code", "CSCI0320"), ("department", "Computer Science")],
                           [("course_code", "MATH0520"), ("department", "Mathematics")]] }
    encode := fun _ => [1]
    bm25_get_scores := fun _ => [3, 1] }

/-- A variant of `hsW` whose two embedding rows coincide, so every raw dense
score is identical. -/
def hsW5 : HybridSearch :=
  { store := { index := { ntotal := 2, reconstruct := fun _ => [1] },
               courses := [[("course_code", "CSCI0320"), ("department", "Computer Science")],
                           [("course_code", "MATH0520"), ("department", "Mathematics")]] }
    encode := fun _ => [1]
    bm25_get_scores := fun _ => [3, 1] }

/-- The first result `hsW.query "hello" 10 0 []` produces. -/
def resW0 : ScoredCourse :=
  { course := [("course_code", "CSCI0320"), ("department", "Computer Science")]
    faiss_score := 0, bm25_score := 1, hybrid_score := 1, exact_match := false }

/-- The first result `hsW5.query "hello" 10 (1/2) []` produces. -/
def resW5 : ScoredCourse :=
  { course := [("course_code", "CSCI0320"), ("department", "Computer Science")]
    faiss_score := 0, bm25_score := 1, hybrid_score := 1/2, exact_match := false }

/-- The single result `hsW.query "hello" 10 0 [("department", "computer science")]`
produces. -/
def resW7 : ScoredCourse :=
  { course := [("course_code", "CSCI0320"), ("department", "Computer Science")]
    faiss_score := 0, bm25_score := 0, hybrid_score := 0, exact_match := false }

/-! ### General list lemmas -/

theorem getD_pred {P : ℚ → Prop} {xs : List ℚ} (n : ℕ) {d : ℚ}
    (h : ∀ x ∈ xs, P x) (hd : P d) : P (xs.getD n d) := by
  rw [List.getD_eq_getElem?_getD]
  cases hx : xs[n]? with
  | none => exact hd
  | some a => exact h a (List.getElem?_mem hx)

theorem getD_mem {α : Type} {xs : List α} {n : ℕ} (d : α) (h : n < xs.length) :
    xs.getD n d ∈ xs := by
  rw [List.getD_eq_getElem?_getD, List.getElem?_eq_getElem h]
  exact List.getElem_mem h

theorem getD_set_ne {α : Type} {xs : List α} {i j : ℕ} (a d : α) (h : i ≠ j) :
    (xs.set i a).getD j d = xs.getD j d := by
  rw [List.getD_eq_getElem?_getD, List.getD_eq_getElem?_getD, List.getElem?_set,
    if_neg h]

theorem getD_set_self {α : Type} {xs : List α} {i : ℕ} (a d : α)
    (h : i < xs.length) : (xs.set i a).getD i d = a := by
  rw [List.getD_eq_getElem?_getD, List.getElem?_set, if_pos rfl, if_pos h,
    Option.getD_some]

/-! ### Minimum and maximum of a score vector -/

theorem foldl_min_le {xs : List ℚ} {a : ℚ} : xs.foldl min a ≤ a := by
  induction xs generalizing a with
  | nil => exact le_refl a
  | cons y ys ih => exact le_trans ih (min_le_left a y)

theorem foldl_min_le_mem {xs : List ℚ} {a x : ℚ} (hx : x ∈ xs) :
    xs.foldl min a ≤ x := by
  induction xs generalizing a with
  | nil => cases hx
  | cons y ys ih =>
    rcases List.mem_cons.mp hx with h | h
    · subst h
      simp only [List.foldl_cons]
      exact le_trans foldl_min_le (min_le_right a x)
    · exact ih h

theorem listMin_le_mem {xs : List ℚ} {x : ℚ} (hx : x ∈ xs) : listMin xs ≤ x := by
  cases xs with
  | nil => cases hx
  | cons y ys =>
    rcases List.mem_cons.mp hx with h | h
    · subst h; exact foldl_min_le
    · exact foldl_min_le_mem h

theorem le_foldl_max {xs : List ℚ} {a : ℚ} : a ≤ xs.foldl max a := by
  induction xs generalizing a with
  | nil => exact le_refl a
  | cons y ys ih => exact le_trans (le_max_left a y) ih

theorem mem_le_foldl_max {xs : List ℚ} {a x : ℚ} (hx : x ∈ xs) :
    x ≤ xs.foldl max a := by
  induction xs generalizing a with
  | nil => cases hx
  | cons y ys ih =>
    rcases List.mem_cons.mp hx with h | h
    · subst h
      simp only [List.foldl_cons]
      exact le_trans (le_max_right a x) le_foldl_max
    · exact ih h

theorem mem_le_listMax {xs : List ℚ} {x : ℚ} (hx : x ∈ xs) : x ≤ listMax xs := by
  cases xs with
  | nil => cases hx
  | cons y ys =>
    rcases List.mem_cons.mp hx with h | h
    · subst h; exact le_foldl_max
    · exact mem_le_foldl_max h

/-! ### Facts about `_normalise` -/

theorem normalise_length (xs : List ℚ) : (normalise xs).length = xs.length := by
  simp only [normalise]
  split <;> simp

theorem normalise_mem_bounds {xs : List ℚ} {x : ℚ} (hx : x ∈ normalise xs) :
    0 ≤ x ∧ x ≤ 1 := by
  simp only [normalise] at hx
  split at hx
  · rcases List.mem_map.mp hx with ⟨y, _, rfl⟩
    exact ⟨le_refl 0, zero_le_one⟩
  · rename_i hne
    rcases List.mem_map.mp hx with ⟨y, hy, rfl⟩
    have hlo : listMin xs ≤ y := listMin_le_mem hy
    have hhi : y ≤ listMax xs := mem_le_listMax hy
    have hlt : listMin xs < listMax xs :=
      lt_of_le_of_ne (le_trans hlo hhi) (fun h => hne h.symm)
    have hpos : 0 < listMax xs - listMin xs := by linarith
    constructor
    · exact div_nonneg (by linarith) (le_of_lt hpos)
    · rw [div_le_one hpos]; linarith

theorem foldl_min_all_eq {xs : List ℚ} {z : ℚ} (h : ∀ x ∈ xs, x = z) :
    xs.foldl min z = z := by
  induction xs with
  | nil => rfl
  | cons w ws ih =>
    have hw : w = z := h w (List.mem_cons_self w ws)
    subst hw
    show ws.foldl min (min w w) = w
    rw [min_self]
    exact ih (fun x hx => h x (List.mem_cons_of_mem w hx))

theorem foldl_max_all_eq {xs : List ℚ} {z : ℚ} (h : ∀ x ∈ xs, x = z) :
    xs.foldl max z = z := by
  induction xs with
  | nil => rfl
  | cons w ws ih =>
    have hw : w = z := h w (List.mem_cons_self w ws)
    subst hw
    show ws.foldl max (max w w) = w
    rw [max_self]
    exact ih (fun x hx => h x (List.mem_cons_of_mem w hx))

theorem normalise_of_all_eq {xs : List ℚ} (h : ∀ x ∈ xs, ∀ y ∈ xs, x = y) :
    normalise xs = xs.map (fun _ => 0) := by
  simp only [normalise]
  cases xs with
  | nil => simp
  | cons z zs =>
    have hz : ∀ x ∈ zs, x = z :=
      fun x hx => h x (List.mem_cons_of_mem z hx) z (List.mem_cons_self z zs)
    have hmin : listMin (z :: zs) = z := foldl_min_all_eq hz
    have hmax : listMax (z :: zs) = z := foldl_max_all_eq hz
    rw [hmin, hmax, if_pos rfl]

/-! ### Facts about the fusion formula and the exact-match override -/

theorem fuse_length {alpha : ℚ} {f b : List ℚ} (h : f.length = b.length) :
    (fuse alpha f b).length = f.length := by
  simp [fuse, h]

theorem exists_of_mem_fuse {alpha : ℚ} {f b : List ℚ} {z : ℚ}
    (hz : z ∈ fuse alpha f b) :
    ∃ x ∈ f, ∃ y ∈ b, z = alpha * x + (1 - alpha) * y := by
  induction f generalizing b with
  | nil => cases hz
  | cons x f ih =>
    cases b with
    | nil => cases hz
    | cons y b =>
      rcases List.mem_cons.mp hz with h | h
      · exact ⟨x, List.mem_cons_self x f, y, List.mem_cons_self y b, h⟩
      · rcases ih h with ⟨x', hx', y', hy', hz'⟩
        exact ⟨x', List.mem_cons_of_mem x hx', y', List.mem_cons_of_mem y hy', hz'⟩

theorem fuse_getD {alpha : ℚ} {f b : List ℚ} (h : f.length = b.length) (l : ℕ) :
    (fuse alpha f b).getD l 0 = alpha * f.getD l 0 + (1 - alpha) * b.getD l 0 := by
  induction f generalizing b l with
  | nil =>
    cases b with
    | nil => simp [fuse]
    | cons y b => simp at h
  | cons x f ih =>
    cases b with
    | nil => simp at h
    | cons y b =>
      cases l with
      | zero => simp [fuse]
      | succ l =>
        have h' : f.length = b.length := by simpa using h
        simpa [fuse] using ih h' l

theorem applyExact_length (hybrid : List ℚ) (idx : Option ℕ) :
    (applyExact hybrid idx).length = hybrid.length := by
  cases idx <;> simp [applyExact]

theorem mem_applyExact {hybrid : List ℚ} {idx : Option ℕ} {z : ℚ}
    (hz : z ∈ applyExact hybrid idx) : z ∈ hybrid ∨ z = 1 := by
  cases idx with
  | none => exact Or.inl hz
  | some l => exact List.mem_or_eq_of_mem_set hz

theorem applyExact_getD_of_ne {hybrid : List ℚ} {idx : Option ℕ} {l : ℕ}
    (h : idx ≠ some l) : (applyExact hybrid idx).getD l 0 = hybrid.getD l 0 := by
  cases idx with
  | none => rfl
  | some i =>
    have : i ≠ l := fun he => h (by rw [he])
    exact getD_set_ne 1 0 this

theorem applyExact_getD_self {hybrid : List ℚ} {l : ℕ} (h : l < hybrid.length) :
    (applyExact hybrid (some l)).getD l 0 = 1 :=
  getD_set_self 1 0 h

/-! ### Lengths through the query pipeline -/

theorem faissRaw_length (hs : HybridSearch) (text : String) (cand : List ℕ) :
    (hs.faissRaw text cand).length = cand.length := by
  simp [HybridSearch.faissRaw]

theorem bm25Raw_length (hs : HybridSearch) (text : String) (cand : List ℕ) :
    (hs.bm25Raw text cand).length = cand.length := by
  simp [HybridSearch.bm25Raw]

theorem norm_faiss_length (hs : HybridSearch) (text : String) (cand : List ℕ) :
    (normalise (hs.faissRaw text cand)).length = cand.length := by
  rw [normalise_length, faissRaw_length]

theorem norm_bm25_length (hs : HybridSearch) (text : String) (cand : List ℕ) :
    (normalise (hs.bm25Raw text cand)).length = cand.length := by
  rw [normalise_length, bm25Raw_length]

theorem hybridFinal_length (hs : HybridSearch) (text : String) (alpha : ℚ)
    (cand : List ℕ) : (hs.hybridFinal text alpha cand).length = cand.length := by
  rw [HybridSearch.hybridFinal, applyExact_length, fuse_length, norm_faiss_length]
  rw [norm_faiss_length, norm_bm25_length]

theorem hybridFinal_mem_bounds {hs : HybridSearch} {text : String} {alpha : ℚ}
    {cand : List ℕ} (h0 : 0 ≤ alpha) (h1 : alpha ≤ 1) {z : ℚ}
    (hz : z ∈ hs.hybridFinal text alpha cand) : 0 ≤ z ∧ z ≤ 1 := by
  rcases mem_applyExact hz with h | h
  · rcases exists_of_mem_fuse h with ⟨x, hx, y, hy, rfl⟩
    rcases normalise_mem_bounds hx with ⟨hx0, hx1⟩
    rcases normalise_mem_bounds hy with ⟨hy0, hy1⟩
    constructor
    · have := mul_nonneg h0 hx0
      have := mul_nonneg (by linarith : (0:ℚ) ≤ 1 - alpha) hy0
      linarith
    · have hax : alpha * x ≤ alpha * 1 := mul_le_mul_of_nonneg_left hx1 h0
      have hby : (1 - alpha) * y ≤ (1 - alpha) * 1 :=
        mul_le_mul_of_nonneg_left hy1 (by linarith)
      nlinarith
  · subst h; exact ⟨zero_le_one, le_refl 1⟩

/-! ### The argsort model and the top-k selection -/

theorem argRel_trans {xs : List ℚ} {i j k : ℕ} (h1 : argRel xs i j)
    (h2 : argRel xs j k) : argRel xs i k := by
  rcases h1 with h1 | ⟨h1, h1'⟩ <;> rcases h2 with h2 | ⟨h2, h2'⟩
  · exact Or.inl (lt_trans h1 h2)
  · exact Or.inl (h2 ▸ h1)
  · exact Or.inl (h1 ▸ h2)
  · exact Or.inr ⟨h1.trans h2, le_trans h1' h2'⟩

theorem argRel_total (xs : List ℚ) (i j : ℕ) : argRel xs i j ∨ argRel xs j i := by
  rcases lt_trichotomy (xs.getD i 0) (xs.getD j 0) with h | h | h
  · exact Or.inl (Or.inl h)
  · rcases Nat.le_total i j with hij | hij
    · exact Or.inl (Or.inr ⟨h, hij⟩)
    · exact Or.inr (Or.inr ⟨h.symm, hij⟩)
  · exact Or.inr (Or.inl h)

theorem argsort_perm (xs : List ℚ) : (argsort xs).Perm (List.range xs.length) :=
  List.perm_insertionSort _ _

theorem argsort_length (xs : List ℚ) : (argsort xs).length = xs.length := by
  rw [(argsort_perm xs).length_eq, List.length_range]

theorem mem_argsort {xs : List ℚ} {i : ℕ} : i ∈ argsort xs ↔ i < xs.length := by
  rw [(argsort_perm xs).mem_iff, List.mem_range]

theorem argsort_nodup (xs : List ℚ) : (argsort xs).Nodup :=
  (argsort_perm xs).symm.nodup (List.nodup_range xs.length)

theorem argsort_sorted (xs : List ℚ) : List.Sorted (argRel xs) (argsort xs) := by
  haveI : IsTotal ℕ (argRel xs) := ⟨argRel_total xs⟩
  haveI : IsTrans ℕ (argRel xs) := ⟨fun _ _ _ => argRel_trans⟩
  exact List.sorted_insertionSort _ _

theorem pairwise_rev_argsort (xs : List ℚ) :
    List.Pairwise
      (fun i j => xs.getD j 0 < xs.getD i 0 ∨ (xs.getD j 0 = xs.getD i 0 ∧ j < i))
      (argsort xs).reverse := by
  rw [List.pairwise_reverse]
  have h := (argsort_sorted xs).and (argsort_nodup xs)
  exact h.imp (fun hab => by
    rcases hab with ⟨hr | ⟨he, hle⟩, hne⟩
    · exact Or.inl hr
    · exact Or.inr ⟨he, lt_of_le_of_ne hle hne⟩)

theorem topLocal_pairwise (xs : List ℚ) (k : ℕ) :
    List.Pairwise
      (fun i j => xs.getD j 0 < xs.getD i 0 ∨ (xs.getD j 0 = xs.getD i 0 ∧ j < i))
      (topLocal xs k) :=
  List.Pairwise.sublist (List.take_sublist k _) (pairwise_rev_argsort xs)

theorem mem_topLocal {xs : List ℚ} {k l : ℕ} (h : l ∈ topLocal xs k) :
    l < xs.length :=
  mem_argsort.mp (List.mem_reverse.mp ((List.take_sublist k _).subset h))

theorem topLocal_nodup (xs : List ℚ) (k : ℕ) : (topLocal xs k).Nodup :=
  (List.take_sublist k _).nodup (by rw [List.nodup_reverse]; exact argsort_nodup xs)

theorem topLocal_head {xs : List ℚ} {k l0 : ℕ} (hk : 1 ≤ k) (hl0 : l0 < xs.length)
    (hmax : ∀ l, l < xs.length → l ≠ l0 → xs.getD l 0 < xs.getD l0 0) :
    ∃ rest, topLocal xs k = l0 :: rest := by
  cases ht : (argsort xs).reverse with
  | nil =>
    have hlen : (argsort xs).reverse.length = xs.length := by
      rw [List.length_reverse, argsort_length]
    rw [ht] at hlen
    simp at hlen
    omega
  | cons h t2 =>
    have hh : h = l0 := by
      by_contra hne
      have hhmem : h ∈ (argsort xs).reverse := by
        rw [ht]; exact List.mem_cons_self h t2
      have hhlt : h < xs.length := mem_argsort.mp (List.mem_reverse.mp hhmem)
      have hxh : xs.getD h 0 < xs.getD l0 0 := hmax h hhlt hne
      have hl0mem : l0 ∈ (argsort xs).reverse :=
        List.mem_reverse.mpr (mem_argsort.mpr hl0)
      rw [ht] at hl0mem
      rcases List.mem_cons.mp hl0mem with h1 | h1
      · exact hne h1.symm
      · have hp := pairwise_rev_argsort xs
        rw [ht] at hp
        rcases (List.pairwise_cons.mp hp).1 l0 h1 with hlt | ⟨heq, _⟩
        · linarith
        · rw [heq] at hxh; exact absurd hxh (lt_irrefl _)
    subst hh
    cases k with
    | zero => omega
    | succ k => exact ⟨t2.take k, by rw [topLocal, ht, List.take_succ_cons]⟩

/-! ### Shape lemmas for `query` -/

theorem query_snd (hs : HybridSearch) (text : String) (top_k : ℕ) (alpha : ℚ)
    (filters : List (String × String)) :
    (hs.query text top_k alpha filters).2 = extract_course_code text := by
  simp only [HybridSearch.query]
  split <;> rfl

theorem query_fst_of_ne (hs : HybridSearch) (text : String) (top_k : ℕ)
    (alpha : ℚ) (filters : List (String × String))
    (hne : candidateIdx hs.courses filters ≠ []) :
    (hs.query text top_k alpha filters).1 =
      (topLocal (hs.hybridFinal text alpha (candidateIdx hs.courses filters)) top_k).map
        (hs.mkResult text alpha (candidateIdx hs.courses filters)) := by
  simp only [HybridSearch.query]
  rw [if_neg hne]

theorem query_of_empty (hs : HybridSearch) (text : String) (top_k : ℕ)
    (alpha : ℚ) (filters : List (String × String))
    (he : candidateIdx hs.courses filters = []) :
    hs.query text top_k alpha filters = ([], extract_course_code text) := by
  simp only [HybridSearch.query]
  rw [if_pos he]

theorem exists_topLocal_of_mem_query {hs : HybridSearch} {text : String}
    {top_k : ℕ} {alpha : ℚ} {filters : List (String × String)} {r : ScoredCourse}
    (hr : r ∈ (hs.query text top_k alpha filters).1) :
    ∃ l, l ∈ topLocal (hs.hybridFinal text alpha (candidateIdx hs.courses filters)) top_k ∧
      r = hs.mkResult text alpha (candidateIdx hs.courses filters) l := by
  by_cases he : candidateIdx hs.courses filters = []
  · rw [query_of_empty hs text top_k alpha filters he] at hr
    cases hr
  · rw [query_fst_of_ne hs text top_k alpha filters he] at hr
    rcases List.mem_map.mp hr with ⟨l, hl, rfl⟩
    exact ⟨l, hl, rfl⟩

/-! ### The candidate filter -/

theorem mem_candidateIdx {courses : List Course} {filters : List (String × String)}
    {i : ℕ} :
    i ∈ candidateIdx courses filters ↔
      i < courses.length ∧
        ∀ kv ∈ filters, pyLower (getStr (courses.getD i []) kv.1) = pyLower kv.2 := by
  unfold candidateIdx
  by_cases hf : filters.isEmpty
  · rw [if_pos hf]
    have he : filters = [] := List.isEmpty_iff.mp hf
    subst he
    simp [List.mem_range]
  · rw [if_neg hf]
    simp [List.mem_filter, List.mem_range, matchesFilters, List.all_eq_true]

theorem mem_courses_of_topLocal {hs : HybridSearch} {text : String} {alpha : ℚ}
    {cand : List ℕ} {l : ℕ}
    (hl : l ∈ topLocal (hs.hybridFinal text alpha cand) top_k) :
    cand.getD l 0 ∈ cand := by
  have hlt : l < (hs.hybridFinal text alpha cand).length := mem_topLocal hl
  rw [hybridFinal_length] at hlt
  exact getD_mem 0 hlt

/-! ### Claim theorems -/

/-- C4: for every query with candidate set and blend weight `alpha ∈ [0,1]`,
every returned result carries a fused score in `[0,1]`, and likewise its
normalised dense and lexical scores lie in `[0,1]`. -/
theorem C4_scores_in_unit_interval (hs : HybridSearch) (text : String)
    (top_k : ℕ) (alpha : ℚ) (filters : List (String × String))
    (h0 : 0 ≤ alpha) (h1 : alpha ≤ 1)
    (_hne : candidateIdx hs.courses filters ≠ [])
    (r : ScoredCourse) (hr : r ∈ (hs.query text top_k alpha filters).1) :
    (0 ≤ r.hybrid_score ∧ r.hybrid_score ≤ 1) ∧
    (0 ≤ r.faiss_score ∧ r.faiss_score ≤ 1) ∧
    (0 ≤ r.bm25_score ∧ r.bm25_score ≤ 1) := by
  rcases exists_topLocal_of_mem_query hr with ⟨l, hl, rfl⟩
  simp only [HybridSearch.mkResult]
  refine ⟨?_, ?_, ?_⟩
  · exact getD_pred l (fun z hz => hybridFinal_mem_bounds h0 h1 hz)
      ⟨le_refl 0, zero_le_one⟩
  · exact getD_pred l (fun z hz => normalise_mem_bounds hz) ⟨le_refl 0, zero_le_one⟩
  · exact getD_pred l (fun z hz => normalise_mem_bounds hz) ⟨le_refl 0, zero_le_one⟩

/-- C9: when the equality filter leaves no candidates, `query` returns the
empty result list paired with the detected identifier, and raises nothing
(the embedding is a total function). -/
theorem C9_empty_candidates (hs : HybridSearch) (text : String) (top_k : ℕ)
    (alpha : ℚ) (filters : List (String × String))
    (he : candidateIdx hs.courses filters = []) :
    hs.query text top_k alpha filters = ([], extract_course_code text) :=
  query_of_empty hs text top_k alpha filters he

/-- C10: the state-threaded query leaves the search state (course list,
embedding index, lexical scorer) unchanged, and every returned result's record
is a copy of a stored corpus record (equal, as a value, to the record at some
in-range corpus position), decorated with the four added score fields. -/
theorem C10_query_pure (hs : HybridSearch) (text : String) (top_k : ℕ)
    (alpha : ℚ) (filters : List (String × String)) :
    (hs.queryS text top_k alpha filters).2 = hs ∧
    ∀ r ∈ (hs.queryS text top_k alpha filters).1.1,
      ∃ g, g < hs.courses.length ∧ r.course = hs.courses.getD g [] := by
  refine ⟨rfl, ?_⟩
  intro r hr
  rcases exists_topLocal_of_mem_query hr with ⟨l, hl, rfl⟩
  refine ⟨(candidateIdx hs.courses filters).getD l 0, ?_, rfl⟩
  exact (mem_candidateIdx.mp (mem_courses_of_topLocal hl)).1

/-- C7: equality filtering selects exactly the in-range corpus positions whose
record satisfies every criterion under case-insensitive string equality; empty
criteria select every position; a missing field is compared as the empty
string; consequently every record returned by `query` under a filter satisfies
every one of its criteria case-insensitively. -/
theorem C7_filter_correctness :
    (∀ courses : List Course, candidateIdx courses [] = List.range courses.length) ∧
    (∀ (courses : List Course) (filters : List (String × String)) (i : ℕ),
      i ∈ candidateIdx courses filters ↔
        i < courses.length ∧
          ∀ kv ∈ filters, pyLower (getStr (courses.getD i []) kv.1) = pyLower kv.2) ∧
    (∀ (c : Course) (k : String), c.lookup k = none → getStr c k = "") ∧
    (∀ (hs : HybridSearch) (text : String) (top_k : ℕ) (alpha : ℚ)
      (filters : List (String × String)) (r : ScoredCourse),
      r ∈ (hs.query text top_k alpha filters).1 →
        ∀ kv ∈ filters, pyLower (getStr r.course kv.1) = pyLower kv.2) := by
  refine ⟨?_, ?_, ?_, ?_⟩
  · intro courses; simp [candidateIdx]
  · intro courses filters i; exact mem_candidateIdx
  · intro c k h; simp [getStr, h]
  · intro hs text top_k alpha filters r hr kv hkv
    rcases exists_topLocal_of_mem_query hr with ⟨l, hl, rfl⟩
    simp only [HybridSearch.mkResult]
    exact (mem_candidateIdx.mp (mem_courses_of_topLocal hl)).2 kv hkv

/-- C8: outside the exact-match override, blend weight 0 makes the fused score
equal the normalised lexical score and blend weight 1 makes it equal the
normalised dense score, by the generic fusion formula alone. -/
theorem C8_blend_endpoints (hs : HybridSearch) (text : String) (top_k : ℕ)
    (filters : List (String × String)) (r : ScoredCourse) :
    (r ∈ (hs.query text top_k 0 filters).1 → r.exact_match = false →
      r.hybrid_score = r.bm25_score) ∧
    (r ∈ (hs.query text top_k 1 filters).1 → r.exact_match = false →
      r.hybrid_score = r.faiss_score) := by
  constructor
  · intro hr hex
    rcases exists_topLocal_of_mem_query hr with ⟨l, hl, heq⟩
    subst heq
    simp only [HybridSearch.mkResult] at hex ⊢
    have hne : exactIdx hs.courses (candidateIdx hs.courses filters)
        (extract_course_code text) ≠ some l := by
      intro h
      rw [h] at hex
      simp at hex
    rw [HybridSearch.hybridFinal, applyExact_getD_of_ne hne, fuse_getD (by
      rw [norm_faiss_length, norm_bm25_length])]
    ring
  · intro hr hex
    rcases exists_topLocal_of_mem_query hr with ⟨l, hl, heq⟩
    subst heq
    simp only [HybridSearch.mkResult] at hex ⊢
    have hne : exactIdx hs.courses (candidateIdx hs.courses filters)
        (extract_course_code text) ≠ some l := by
      intro h
      rw [h] at hex
      simp at hex
    rw [HybridSearch.hybridFinal, applyExact_getD_of_ne hne, fuse_getD (by
      rw [norm_faiss_length, norm_bm25_length])]
    ring

/-- C5: min-max normalisation computes `(x - min) / (max - min)` elementwise;
when all entries coincide it returns the all-zeros vector; and end to end, if
every candidate's raw dense score is identical then every returned result's
normalised dense score is 0. -/
theorem C5_minmax_normalisation (xs : List ℚ) (hs : HybridSearch) (text : String)
    (top_k : ℕ) (alpha : ℚ) (filters : List (String × String)) :
    (listMax xs ≠ listMin xs →
      normalise xs = xs.map (fun x => (x - listMin xs) / (listMax xs - listMin xs))) ∧
    ((∀ x ∈ xs, ∀ y ∈ xs, x = y) → normalise xs = xs.map (fun _ => 0)) ∧
    ((∀ x ∈ hs.faissRaw text (candidateIdx hs.courses filters),
      ∀ y ∈ hs.faissRaw text (candidateIdx hs.courses filters), x = y) →
      ∀ r ∈ (hs.query text top_k alpha filters).1, r.faiss_score = 0) := by
  refine ⟨?_, normalise_of_all_eq, ?_⟩
  · intro hne
    simp only [normalise]
    rw [if_neg hne]
  · intro hall r hr
    rcases exists_topLocal_of_mem_query hr with ⟨l, hl, rfl⟩
    simp only [HybridSearch.mkResult]
    rw [normalise_of_all_eq hall]
    exact getD_pred (P := fun z => z = 0) l
      (fun z hz => by rcases List.mem_map.mp hz with ⟨y, _, rfl⟩; rfl) rfl

/-- C2 (amended): results are ordered by fused score descending — a property
that holds under any correct by-value argsort, so it does not depend on the
model's tie completion — and the ordering is deterministic for identical
inputs (the pipeline is a pure function of its inputs with no randomness).
The claimed original-order (stable) tie-break, by contrast, is refuted by the
counterexample: the code reverses an ascending argsort, so tied candidates
need not come back in original candidate order. -/
theorem C2_amended_ordering (hs : HybridSearch) (text : String) (top_k : ℕ)
    (alpha : ℚ) (filters : List (String × String)) :
    ((hs.query text top_k alpha filters).1.map ScoredCourse.hybrid_score).Pairwise
      (fun a b => b ≤ a) := by
  by_cases he : candidateIdx hs.courses filters = []
  · rw [query_of_empty hs text top_k alpha filters he]
    exact List.Pairwise.nil
  · rw [query_fst_of_ne hs text top_k alpha filters he, List.map_map]
    refine List.Pairwise.map _ ?_ (topLocal_pairwise
      (hs.hybridFinal text alpha (candidateIdx hs.courses filters)) top_k)
    intro i j hij
    simp only [Function.comp, HybridSearch.mkResult]
    rcases hij with h | ⟨h, _⟩
    · exact le_of_lt h
    · exact le_of_eq h

/-- C3 (amended): `VectorStore.load` fails exactly when one of the two
artifacts cannot be read (surfacing the underlying reader's error — the source
defines no `CorpusUnavailable`), and succeeds whenever both parse, performing
no row-count comparison between them. -/
theorem C3_amended_load :
    (∀ (idx : FaissIndex) (courses : List Course),
      VectorStore.load (some idx) (some courses) =
        .ok { index := idx, courses := courses }) ∧
    (∀ m : Option (List Course),
      VectorStore.load none m = .error .indexReadFailed) ∧
    (∀ idx : FaissIndex, VectorStore.load (some idx) none = .error .metaReadFailed) :=
  ⟨fun _ _ => rfl, fun _ => rfl, fun _ => rfl⟩

/-- C3 (counterexample): a readable two-row index paired with a readable
one-record metadata file has mismatched row counts, yet `load` succeeds — the
claim that load fails on any row-count mismatch is false of the code. -/
theorem C3_counterexample_mismatch_loads :
    idxX3.ntotal = 2 ∧ metaX3.length = 1 ∧
    VectorStore.load (some idxX3) (some metaX3) =
      .ok { index := idxX3, courses := metaX3 } :=
  ⟨rfl, rfl, rfl⟩

/-- Full evaluation of the query of `hsX1` whose detected code "BBBB2222"
matches exactly the first course while the second course attains both raw
score maxima: the tied candidate is returned first. -/
theorem hsX1_query_eval :
    hsX1.query "BBBB2222" 10 (1/2) [] =
      ([{ course := courseTop, faiss_score := 1, bm25_score := 1,
          hybrid_score := 1, exact_match := false },
        { course := courseExact, faiss_score := 0, bm25_score := 0,
          hybrid_score := 1, exact_match := true }],
       some "BBBB2222") := by
  have hdet : extract_course_code "BBBB2222" = some "BBBB2222" := by decide
  have hcand : candidateIdx hsX1.courses [] = [0, 1] := by decide
  have heidx : exactIdx hsX1.courses [0, 1] (some "BBBB2222") = some 0 := by decide
  have hfn : normalise (hsX1.faissRaw "BBBB2222" [0, 1]) = [0, 1] := by
    norm_num [HybridSearch.faissRaw, hsX1, dot, normalise, listMin, listMax,
      min_def, max_def]
  have hbn : normalise (hsX1.bm25Raw "BBBB2222" [0, 1]) = [0, 1] := by
    norm_num [HybridSearch.bm25Raw, hsX1, normalise, listMin, listMax,
      min_def, max_def]
  have hhy : hsX1.hybridFinal "BBBB2222" (1/2) [0, 1] = [1, 1] := by
    rw [HybridSearch.hybridFinal, hdet, heidx, hfn, hbn]
    norm_num [fuse, applyExact]
  have htop : topLocal ([1, 1] : List ℚ) 10 = [1, 0] := by
    norm_num [topLocal, argsort, List.insertionSort, List.orderedInsert, argRel]
  rw [HybridSearch.query, hcand, if_neg (by decide : ¬([0, 1] : List ℕ) = []), hdet,
    hhy, htop]
  simp only [List.map_cons, List.map_nil, HybridSearch.mkResult]
  rw [hfn, hbn, hhy, hdet, heidx]
  decide

/-- C1 (code bug): in `hsX1`, the detected identifier "BBBB2222" matches
exactly one candidate's canonicalised code; that candidate does get fused
score 1.0 and `exactMatch = true` and every other candidate gets
`exactMatch = false`, but it is returned second, not first — the non-matching
candidate ties at fused score 1.0 and the reversed argsort places it first,
contradicting the module docstring ("exact matches are boosted to rank
first"), the spec, and the repository's own `test_exact_match_ranks_first`. -/
theorem C1_exact_match_not_ranked_first :
    extract_course_code "BBBB2222" = some "BBBB2222" ∧
    (candidateIdx hsX1.courses []).countP (codeMatches hsX1.courses "BBBB2222") = 1 ∧
    ((hsX1.query "BBBB2222" 10 (1/2) []).1.map
      (fun r => getStr r.course "course_code")) = ["AAAA1111", "BBBB2222"] ∧
    ((hsX1.query "BBBB2222" 10 (1/2) []).1.map ScoredCourse.exact_match) =
      [false, true] ∧
    ((hsX1.query "BBBB2222" 10 (1/2) []).1.map ScoredCourse.hybrid_score) = [1, 1] := by
  refine ⟨by decide, by decide, ?_, ?_, ?_⟩ <;> rw [hsX1_query_eval] <;> decide

/-- Full evaluation of the query of `hsX2`, where both candidates' fused
scores tie at 0: the results come back in reverse corpus order. -/
theorem hsX2_query_eval :
    hsX2.query "hello" 10 (1/2) [] =
      ([{ course := courseK2, faiss_score := 0, bm25_score := 0,
          hybrid_score := 0, exact_match := false },
        { course := courseK1, faiss_score := 0, bm25_score := 0,
          hybrid_score := 0, exact_match := false }],
       none) := by
  have hdet : extract_course_code "hello" = none := by decide
  have hcand : candidateIdx hsX2.courses [] = [0, 1] := by decide
  have heidx : exactIdx hsX2.courses [0, 1] none = none := rfl
  have hfn : normalise (hsX2.faissRaw "hello" [0, 1]) = [0, 0] := by
    norm_num [HybridSearch.faissRaw, hsX2, dot, normalise, listMin, listMax,
      min_def, max_def]
  have hbn : normalise (hsX2.bm25Raw "hello" [0, 1]) = [0, 0] := by
    norm_num [HybridSearch.bm25Raw, hsX2, normalise, listMin, listMax,
      min_def, max_def]
  have hhy : hsX2.hybridFinal "hello" (1/2) [0, 1] = [0, 0] := by
    rw [HybridSearch.hybridFinal, hdet, heidx, hfn, hbn]
    norm_num [fuse, applyExact]
  have htop : topLocal ([0, 0] : List ℚ) 10 = [1, 0] := by
    norm_num [topLocal, argsort, List.insertionSort, List.orderedInsert, argRel]
  rw [HybridSearch.query, hcand, if_neg (by decide : ¬([0, 1] : List ℕ) = []), hdet,
    hhy, htop]
  simp only [List.map_cons, List.map_nil, HybridSearch.mkResult]
  rw [hfn, hbn, hhy, hdet, heidx]
  decide

/-- C2 (counterexample): two candidates with equal fused scores are returned
in reverse original candidate order — the corpus lists "K1" before "K2", both
tie at fused score 0, and the result list is ["K2", "K1"], so the claimed
original-order (stable) tie-break is false of the code. -/
theorem C2_counterexample_tie_reversed :
    (hsX2.courses.map (fun c => getStr c "course_code")) = ["K1", "K2"] ∧
    ((hsX2.query "hello" 10 (1/2) []).1.map ScoredCourse.hybrid_score) = [0, 0] ∧
    ((hsX2.query "hello" 10 (1/2) []).1.map
      (fun r => getStr r.course "course_code")) = ["K2", "K1"] := by
  refine ⟨by decide, ?_, ?_⟩ <;> rw [hsX2_query_eval] <;> decide

/-! ### The identifier regex: character classes are pairwise disjoint -/

theorem isDigitC_not_isSpaceC {c : Char} (h : isDigitC c = true) :
    isSpaceC c = false := by
  simp only [isDigitC, Bool.and_eq_true, decide_eq_true_eq] at h
  rw [Bool.eq_false_iff]
  intro hs
  simp only [isSpaceC, Bool.or_eq_true, Bool.and_eq_true, decide_eq_true_eq] at hs
  omega

theorem isDigitC_not_isLetterC {c : Char} (h : isDigitC c = true) :
    isLetterC c = false := by
  simp only [isDigitC, Bool.and_eq_true, decide_eq_true_eq] at h
  rw [Bool.eq_false_iff]
  intro hs
  simp only [isLetterC, Bool.or_eq_true, Bool.and_eq_true, decide_eq_true_eq] at hs
  omega

theorem isSpaceC_not_isLetterC {c : Char} (h : isSpaceC c = true) :
    isLetterC c = false := by
  simp only [isSpaceC, Bool.or_eq_true, Bool.and_eq_true, decide_eq_true_eq] at h
  rw [Bool.eq_false_iff]
  intro hs
  simp only [isLetterC, Bool.or_eq_true, Bool.and_eq_true, decide_eq_true_eq] at hs
  omega

/-! ### Characterising the anchored matcher -/

theorem dropWhile_append_of_all {p : Char → Bool} {ws l : List Char}
    (h : ws.all p = true) : (ws ++ l).dropWhile p = l.dropWhile p := by
  induction ws with
  | nil => rfl
  | cons w wt ih =>
    have hw : p w = true :=
      (List.all_eq_true.mp h) w (List.mem_cons_self w wt)
    have ht : wt.all p = true :=
      List.all_eq_true.mpr (fun x hx =>
        (List.all_eq_true.mp h) x (List.mem_cons_of_mem w hx))
    simp [List.dropWhile_cons, hw, ih ht]

theorem matchSpacesDigits_eq_some {cs ds : List Char} :
    matchSpacesDigits cs = some ds ↔
      ∃ ws rest, cs = ws ++ ds ++ rest ∧ ws.all isSpaceC = true ∧
        ds.length = 4 ∧ ds.all isDigitC = true := by
  constructor
  · intro h
    simp only [matchSpacesDigits] at h
    split at h
    case isTrue hcond =>
      obtain ⟨hlen, hdig⟩ := hcond
      injection h with h2
      subst h2
      refine ⟨cs.takeWhile isSpaceC, (cs.dropWhile isSpaceC).drop 4, ?_, ?_, hlen, hdig⟩
      · conv_lhs => rw [← List.takeWhile_append_dropWhile isSpaceC cs,
          ← List.take_append_drop 4 (cs.dropWhile isSpaceC)]
        rw [List.append_assoc]
      · exact List.all_eq_true.mpr (fun x hx => List.mem_takeWhile_imp hx)
    case isFalse => cases h
  · rintro ⟨ws, rest, rfl, hws, hlen, hdig⟩
    simp only [matchSpacesDigits]
    have hdw : ((ws ++ ds ++ rest).dropWhile isSpaceC) = ds ++ rest := by
      rw [List.append_assoc, dropWhile_append_of_all hws]
      cases ds with
      | nil => simp at hlen
      | cons d dt =>
        have hd : isDigitC d = true :=
          (List.all_eq_true.mp hdig) d (List.mem_cons_self d dt)
        simp [List.dropWhile_cons, isDigitC_not_isSpaceC hd]
    rw [hdw]
    have htake : (ds ++ rest).take 4 = ds := by
      rw [← hlen, List.take_left]
    rw [htake, if_pos ⟨hlen, hdig⟩]

theorem tryLetters_eq_some {cs t : List Char} {k : ℕ} :
    tryLetters cs k = some t ↔
      ∃ ls ws ds rest, cs = ls ++ ws ++ ds ++ rest ∧ ls.length = k ∧
        ls.all isLetterC = true ∧ ws.all isSpaceC = true ∧ ds.length = 4 ∧
        ds.all isDigitC = true ∧ t = ls ++ ds := by
  constructor
  · intro h
    simp only [tryLetters] at h
    split at h
    case isTrue hcond =>
      obtain ⟨hlen, hlet⟩ := hcond
      rcases Option.map_eq_some'.mp h with ⟨ds, hmsd, rfl⟩
      rcases matchSpacesDigits_eq_some.mp hmsd with ⟨ws, rest, hdrop, hws, hdsl, hdig⟩
      refine ⟨cs.take k, ws, ds, rest, ?_, hlen, hlet, hws, hdsl, hdig, rfl⟩
      conv_lhs => rw [← List.take_append_drop k cs, hdrop]
      simp [List.append_assoc]
    case isFalse => cases h
  · rintro ⟨ls, ws, ds, rest, rfl, hlen, hlet, hws, hdsl, hdig, rfl⟩
    simp only [tryLetters]
    have hassoc : ls ++ ws ++ ds ++ rest = ls ++ (ws ++ ds ++ rest) := by
      rw [List.append_assoc, List.append_assoc, List.append_assoc]
    have htake : (ls ++ ws ++ ds ++ rest).take k = ls := by
      rw [hassoc, ← hlen, List.take_left]
    have hdrop : (ls ++ ws ++ ds ++ rest).drop k = ws ++ ds ++ rest := by
      rw [hassoc, ← hlen, List.drop_left]
    rw [htake, hdrop, if_pos ⟨hlen, hlet⟩,
      matchSpacesDigits_eq_some.mpr ⟨ws, rest, rfl, hws, hdsl, hdig⟩]
    rfl

/-- When the anchored pattern admits a decomposition with `L` letters, every
attempt consuming more than `L` letters fails: the character right after the
letter block is whitespace or a digit, never a letter. -/
theorem tryLetters_none_of_gt {ls ws ds rest : List Char} {k : ℕ}
    (hgt : ls.length < k) (hws : ws.all isSpaceC = true) (hdsl : ds.length = 4)
    (hdig : ds.all isDigitC = true) :
    tryLetters (ls ++ ws ++ ds ++ rest) k = none := by
  simp only [tryLetters]
  split
  case isFalse => rfl
  case isTrue hcond =>
    exfalso
    obtain ⟨hlen, hlet⟩ := hcond
    have hassoc : ls ++ ws ++ ds ++ rest = ls ++ (ws ++ ds ++ rest) := by
      rw [List.append_assoc, List.append_assoc, List.append_assoc]
    obtain ⟨m, hm⟩ : ∃ m, k = ls.length + (m + 1) :=
      ⟨k - ls.length - 1, by omega⟩
    rw [hassoc, hm, List.take_append] at hlet
    rw [List.all_append] at hlet
    rw [Bool.and_eq_true] at hlet
    have htail := hlet.2
    cases ws with
    | nil =>
      cases ds with
      | nil => simp at hdsl
      | cons d dt =>
        rw [List.nil_append] at htail
        have hd : isLetterC d = true := by
          have := List.all_eq_true.mp htail d
          apply this
          rw [List.cons_append, List.take_succ_cons]
          exact List.mem_cons_self d _
        have hd' : isDigitC d = true :=
          (List.all_eq_true.mp hdig) d (List.mem_cons_self d dt)
        rw [isDigitC_not_isLetterC hd'] at hd
        cases hd
    | cons w wt =>
      have hw : isLetterC w = true := by
        have := List.all_eq_true.mp htail w
        apply this
        rw [List.cons_append, List.cons_append, List.take_succ_cons]
        exact List.mem_cons_self w _
      have hw' : isSpaceC w = true :=
        (List.all_eq_true.mp hws) w (List.mem_cons_self w wt)
      rw [isSpaceC_not_isLetterC hw'] at hw
      cases hw

theorem matchHere_eq_some {cs t : List Char} :
    matchHere cs = some t ↔
      ∃ ls ws ds rest, cs = ls ++ ws ++ ds ++ rest ∧
        2 ≤ ls.length ∧ ls.length ≤ 4 ∧ ls.all isLetterC = true ∧
        ws.all isSpaceC = true ∧ ds.length = 4 ∧ ds.all isDigitC = true ∧
        t = ls ++ ds := by
  constructor
  · intro h
    simp only [matchHere] at h
    rcases Option.or_eq_some.mp h with h4 | ⟨_, h'⟩
    · rcases tryLetters_eq_some.mp h4 with ⟨ls, ws, ds, rest, rfl, hlen, hrest⟩
      exact ⟨ls, ws, ds, rest, rfl, by omega, by omega, hrest.1, hrest.2.1,
        hrest.2.2.1, hrest.2.2.2.1, hrest.2.2.2.2⟩
    · rcases Option.or_eq_some.mp h' with h3 | ⟨_, h2⟩
      · rcases tryLetters_eq_some.mp h3 with ⟨ls, ws, ds, rest, rfl, hlen, hrest⟩
        exact ⟨ls, ws, ds, rest, rfl, by omega, by omega, hrest.1, hrest.2.1,
          hrest.2.2.1, hrest.2.2.2.1, hrest.2.2.2.2⟩
      · rcases tryLetters_eq_some.mp h2 with ⟨ls, ws, ds, rest, rfl, hlen, hrest⟩
        exact ⟨ls, ws, ds, rest, rfl, by omega, by omega, hrest.1, hrest.2.1,
          hrest.2.2.1, hrest.2.2.2.1, hrest.2.2.2.2⟩
  · rintro ⟨ls, ws, ds, rest, rfl, hge, hle, hlet, hws, hdsl, hdig, rfl⟩
    simp only [matchHere]
    have hsome : ∀ k, ls.length = k →
        tryLetters (ls ++ ws ++ ds ++ rest) k = some (ls ++ ds) :=
      fun k hk =>
        tryLetters_eq_some.mpr ⟨ls, ws, ds, rest, rfl, hk, hlet, hws, hdsl, hdig, rfl⟩
    have hnone : ∀ k, ls.length < k →
        tryLetters (ls ++ ws ++ ds ++ rest) k = none :=
      fun k hk => tryLetters_none_of_gt hk hws hdsl hdig
    rcases (by omega : ls.length = 4 ∨ ls.length = 3 ∨ ls.length = 2) with h4 | h3 | h2
    · rw [hsome 4 h4]; rfl
    · rw [hnone 4 (by omega), hsome 3 h3]; rfl
    · rw [hnone 4 (by omega), hnone 3 (by omega), hsome 2 h2]; rfl

theorem matchHere_isSome_iff_patMatch {l : List Char} :
    (∃ t, matchHere l = some t) ↔ ∃ len, PatMatch (l.take len) := by
  constructor
  · rintro ⟨t, ht⟩
    rcases matchHere_eq_some.mp ht with
      ⟨ls, ws, ds, rest, rfl, hge, hle, hlet, hws, hdsl, hdig, _⟩
    refine ⟨ls.length + ws.length + ds.length, ?_⟩
    have htk : (ls ++ ws ++ ds ++ rest).take (ls.length + ws.length + ds.length) =
        ls ++ ws ++ ds := by
      rw [show ls.length + ws.length + ds.length = (ls ++ ws ++ ds).length by
        simp; omega, List.take_left]
    rw [htk]
    exact ⟨ls, ws, ds, rfl, hge, hle, hlet, hws, hdsl, hdig⟩
  · rintro ⟨len, ls, ws, ds, htake, hge, hle, hlet, hws, hdsl, hdig⟩
    have hl : l = ls ++ ws ++ ds ++ l.drop len := by
      conv_lhs => rw [← List.take_append_drop len l, htake]
    exact ⟨ls ++ ds, matchHere_eq_some.mpr
      ⟨ls, ws, ds, l.drop len, hl, hge, hle, hlet, hws, hdsl, hdig, rfl⟩⟩

theorem matchHere_eq_none_iff {l : List Char} :
    matchHere l = none ↔ ∀ len, ¬ PatMatch (l.take len) := by
  constructor
  · intro h len hp
    rcases matchHere_isSome_iff_patMatch.mpr ⟨len, hp⟩ with ⟨t, ht⟩
    rw [h] at ht
    cases ht
  · intro h
    cases hm : matchHere l with
    | none => rfl
    | some t =>
      rcases matchHere_isSome_iff_patMatch.mp ⟨t, hm⟩ with ⟨len, hp⟩
      exact absurd hp (h len)

/-! ### The left-to-right scan of `re.search` -/

theorem reSearch_eq_none {cs : List Char} :
    reSearch cs = none ↔ ∀ i, matchHere (cs.drop i) = none := by
  induction cs with
  | nil =>
    simp only [reSearch]
    constructor
    · intro _ i
      rw [List.drop_nil]
      decide
    · intro _
      trivial
  | cons c ct ih =>
    simp only [reSearch]
    constructor
    · intro h
      cases hmh : matchHere (c :: ct) with
      | some v => rw [hmh] at h; cases h
      | none =>
        rw [hmh] at h
        have h' : reSearch ct = none := h
        intro i
        cases i with
        | zero => simpa using hmh
        | succ i =>
          rw [List.drop_succ_cons]
          exact (ih.mp h') i
    · intro h
      have h0 : matchHere (c :: ct) = none := by simpa using h 0
      rw [h0]
      show reSearch ct = none
      exact ih.mpr (fun i => by
        have := h (i + 1)
        rwa [List.drop_succ_cons] at this)

theorem reSearch_eq_some {cs t : List Char} (h : reSearch cs = some t) :
    ∃ i, matchHere (cs.drop i) = some t ∧
      ∀ j, j < i → matchHere (cs.drop j) = none := by
  induction cs with
  | nil => cases h
  | cons c ct ih =>
    simp only [reSearch] at h
    rcases Option.or_eq_some.mp h with h1 | ⟨h1, h2⟩
    · exact ⟨0, by simpa using h1, fun j hj => absurd hj (Nat.not_lt_zero j)⟩
    · rcases ih h2 with ⟨i, hi, hmin⟩
      refine ⟨i + 1, by simpa [List.drop_succ_cons] using hi, ?_⟩
      intro j hj
      cases j with
      | zero => simpa using h1
      | succ j =>
        rw [List.drop_succ_cons]
        exact hmin j (by omega)

/-- C6: `extract_course_code` returns `none` exactly when no substring of the
query matches the pattern (two to four letters, optional whitespace, four
digits); when it returns a code, that code is the uppercase,
whitespace-dropped canonicalisation of the pattern match at the leftmost
matching start position; it is a total function (so it raises on no input,
empty and punctuation-only strings included); and the query
"Find ENGN 0030 course" yields "ENGN0030". -/
theorem C6_extract_leftmost_canonical (q : String) :
    (extract_course_code q = none ↔
      ∀ i len, ¬ PatMatch ((q.data.drop i).take len)) ∧
    (∀ s, extract_course_code q = some s →
      ∃ i ls ws ds rest, q.data.drop i = ls ++ ws ++ ds ++ rest ∧
        2 ≤ ls.length ∧ ls.length ≤ 4 ∧ ls.all isLetterC = true ∧
        ws.all isSpaceC = true ∧ ds.length = 4 ∧ ds.all isDigitC = true ∧
        s = pyUpper ⟨ls ++ ds⟩ ∧
        ∀ j, j < i → ∀ len, ¬ PatMatch ((q.data.drop j).take len)) ∧
    extract_course_code "Find ENGN 0030 course" = some "ENGN0030" := by
  refine ⟨?_, ?_, by decide⟩
  · rw [extract_course_code, Option.map_eq_none', reSearch_eq_none]
    constructor
    · intro h i
      exact (matchHere_eq_none_iff.mp (h i))
    · intro h i
      exact matchHere_eq_none_iff.mpr (h i)
  · intro s hs
    rcases Option.map_eq_some'.mp hs with ⟨t, hre, rfl⟩
    rcases reSearch_eq_some hre with ⟨i, hi, hmin⟩
    rcases matchHere_eq_some.mp hi with
      ⟨ls, ws, ds, rest, hdrop, hge, hle, hlet, hws, hdsl, hdig, rfl⟩
    exact ⟨i, ls, ws, ds, rest, hdrop, hge, hle, hlet, hws, hdsl, hdig, rfl,
      fun j hj len => matchHere_eq_none_iff.mp (hmin j hj) len⟩

/-! ### Evaluations backing the witnesses -/

theorem hsW_query_eval :
    hsW.query "hello" 10 0 [] =
      ([resW0,
        { course := [("course_code", "MATH0520"), ("department", "Mathematics")]
          faiss_score := 1, bm25_score := 0, hybrid_score := 0, exact_match := false }],
       none) := by
  have hdet : extract_course_code "hello" = none := by decide
  have hcand : candidateIdx hsW.courses [] = [0, 1] := by decide
  have heidx : exactIdx hsW.courses [0, 1] none = none := rfl
  have hfn : normalise (hsW.faissRaw "hello" [0, 1]) = [0, 1] := by
    norm_num [HybridSearch.faissRaw, hsW, dot, normalise, listMin, listMax,
      min_def, max_def]
  have hbn : normalise (hsW.bm25Raw "hello" [0, 1]) = [1, 0] := by
    norm_num [HybridSearch.bm25Raw, hsW, normalise, listMin, listMax,
      min_def, max_def]
  have hhy : hsW.hybridFinal "hello" 0 [0, 1] = [1, 0] := by
    rw [HybridSearch.hybridFinal, hdet, heidx, hfn, hbn]
    norm_num [fuse, applyExact]
  have htop : topLocal ([1, 0] : List ℚ) 10 = [0, 1] := by
    norm_num [topLocal, argsort, List.insertionSort, List.orderedInsert, argRel]
  rw [HybridSearch.query, hcand, if_neg (by decide : ¬([0, 1] : List ℕ) = []), hdet,
    hhy, htop]
  simp only [List.map_cons, List.map_nil, HybridSearch.mkResult]
  rw [hfn, hbn, hhy, hdet, heidx]
  decide

theorem hsW5_query_eval :
    hsW5.query "hello" 10 (1/2) [] =
      ([resW5,
        { course := [("course_code", "MATH0520"), ("department", "Mathematics")]
          faiss_score := 0, bm25_score := 0, hybrid_score := 0, exact_match := false }],
       none) := by
  have hdet : extract_course_code "hello" = none := by decide
  have hcand : candidateIdx hsW5.courses [] = [0, 1] := by decide
  have heidx : exactIdx hsW5.courses [0, 1] none = none := rfl
  have hfn : normalise (hsW5.faissRaw "hello" [0, 1]) = [0, 0] := by
    norm_num [HybridSearch.faissRaw, hsW5, dot, normalise, listMin, listMax,
      min_def, max_def]
  have hbn : normalise (hsW5.bm25Raw "hello" [0, 1]) = [1, 0] := by
    norm_num [HybridSearch.bm25Raw, hsW5, normalise, listMin, listMax,
      min_def, max_def]
  have hhy : hsW5.hybridFinal "hello" (1/2) [0, 1] = [1/2, 0] := by
    rw [HybridSearch.hybridFinal, hdet, heidx, hfn, hbn]
    norm_num [fuse, applyExact]
  have htop : topLocal ([1/2, 0] : List ℚ) 10 = [0, 1] := by
    norm_num [topLocal, argsort, List.insertionSort, List.orderedInsert, argRel]
  rw [HybridSearch.query, hcand, if_neg (by decide : ¬([0, 1] : List ℕ) = []), hdet,
    hhy, htop]
  simp only [List.map_cons, List.map_nil, HybridSearch.mkResult]
  rw [hfn, hbn, hhy, hdet, heidx]
  norm_num [resW5, hsW5, HybridSearch.courses, List.getD_cons_zero,
    List.getD_cons_succ]

theorem hsW_query_filtered_eval :
    hsW.query "hello" 10 0 [("department", "computer science")] = ([resW7], none) := by
  have hdet : extract_course_code "hello" = none := by decide
  have hcand : candidateIdx hsW.courses [("department", "computer science")] = [0] := by
    decide
  have heidx : exactIdx hsW.courses [0] none = none := rfl
  have hfn : normalise (hsW.faissRaw "hello" [0]) = [0] := by
    norm_num [HybridSearch.faissRaw, hsW, dot, normalise, listMin, listMax,
      min_def, max_def]
  have hbn : normalise (hsW.bm25Raw "hello" [0]) = [0] := by
    norm_num [HybridSearch.bm25Raw, hsW, normalise, listMin, listMax,
      min_def, max_def]
  have hhy : hsW.hybridFinal "hello" 0 [0] = [0] := by
    rw [HybridSearch.hybridFinal, hdet, heidx, hfn, hbn]
    norm_num [fuse, applyExact]
  have htop : topLocal ([0] : List ℚ) 10 = [0] := by
    norm_num [topLocal, argsort, List.insertionSort, List.orderedInsert, argRel]
  rw [HybridSearch.query, hcand, if_neg (by decide : ¬([0] : List ℕ) = []), hdet,
    hhy, htop]
  simp only [List.map_cons, List.map_nil, HybridSearch.mkResult]
  rw [hfn, hbn, hhy, hdet, heidx]
  decide

/-! ### Witnesses -/

/-- Witness for C4 at a concrete search state, query and weight. -/
theorem C4_witness :
    resW0 ∈ (hsW.query "hello" 10 0 []).1 ∧
    ((0 ≤ resW0.hybrid_score ∧ resW0.hybrid_score ≤ 1) ∧
     (0 ≤ resW0.faiss_score ∧ resW0.faiss_score ≤ 1) ∧
     (0 ≤ resW0.bm25_score ∧ resW0.bm25_score ≤ 1)) := by
  have hmem : resW0 ∈ (hsW.query "hello" 10 0 []).1 := by
    rw [hsW_query_eval]
    exact List.mem_cons_self _ _
  exact ⟨hmem, C4_scores_in_unit_interval hsW "hello" 10 0 [] (by decide) (by decide)
    (by decide) resW0 hmem⟩

/-- Witness for C5 at a concrete search state whose raw dense scores all
coincide. -/
theorem C5_witness :
    resW5 ∈ (hsW5.query "hello" 10 (1/2) []).1 ∧ resW5.faiss_score = 0 := by
  have hall : ∀ x ∈ hsW5.faissRaw "hello" (candidateIdx hsW5.courses []),
      ∀ y ∈ hsW5.faissRaw "hello" (candidateIdx hsW5.courses []), x = y := by
    have hcand : candidateIdx hsW5.courses [] = [0, 1] := by decide
    have hfr : hsW5.faissRaw "hello" [0, 1] = [1, 1] := by
      norm_num [HybridSearch.faissRaw, hsW5, dot]
    rw [hcand, hfr]
    intro x hx y hy
    simp only [List.mem_cons, List.not_mem_nil, or_false] at hx hy
    rcases hx with hx | hx <;> rcases hy with hy | hy <;> rw [hx, hy]
  have hmem : resW5 ∈ (hsW5.query "hello" 10 (1/2) []).1 := by
    rw [hsW5_query_eval]
    exact List.mem_cons_self _ _
  exact ⟨hmem,
    (C5_minmax_normalisation [] hsW5 "hello" 10 (1/2) []).2.2 hall resW5 hmem⟩

/-- Witness for C6 at the spec's own example query. -/
theorem C6_witness :
    ∃ i ls ws ds rest,
      "Find ENGN 0030 course".data.drop i = ls ++ ws ++ ds ++ rest ∧
      2 ≤ ls.length ∧ ls.length ≤ 4 ∧ ls.all isLetterC = true ∧
      ws.all isSpaceC = true ∧ ds.length = 4 ∧ ds.all isDigitC = true ∧
      "ENGN0030" = pyUpper ⟨ls ++ ds⟩ ∧
      ∀ j, j < i → ∀ len,
        ¬ PatMatch (("Find ENGN 0030 course".data.drop j).take len) :=
  (C6_extract_leftmost_canonical "Find ENGN 0030 course").2.1 "ENGN0030" (by decide)

/-- Witness for C7 at a concrete filtered query whose criterion differs from
the stored field value only by letter case. -/
theorem C7_witness :
    resW7 ∈ (hsW.query "hello" 10 0 [("department", "computer science")]).1 ∧
    pyLower (getStr resW7.course "department") = pyLower "computer science" := by
  have hmem : resW7 ∈ (hsW.query "hello" 10 0 [("department", "computer science")]).1 := by
    rw [hsW_query_filtered_eval]
    exact List.mem_cons_self _ _
  exact ⟨hmem, C7_filter_correctness.2.2.2 hsW "hello" 10 0
    [("department", "computer science")] resW7 hmem
    ("department", "computer science") (List.mem_cons_self _ _)⟩

/-- Witness for C8 at a concrete query with blend weight 0. -/
theorem C8_witness :
    resW0 ∈ (hsW.query "hello" 10 0 []).1 ∧
    resW0.hybrid_score = resW0.bm25_score := by
  have hmem : resW0 ∈ (hsW.query "hello" 10 0 []).1 := by
    rw [hsW_query_eval]
    exact List.mem_cons_self _ _
  exact ⟨hmem, (C8_blend_endpoints hsW "hello" 10 [] resW0).1 hmem rfl⟩

/-- Witness for C9 at a concrete filter matching no record. -/
theorem C9_witness :
    hsW.query "hello" 5 0 [("department", "Basketweaving")] = ([], none) :=
  (C9_empty_candidates hsW "hello" 5 0 [("department", "Basketweaving")]
    (by decide)).trans (by decide)

/-- Witness for C10 at a concrete query. -/
theorem C10_witness :
    (hsW.queryS "hello" 10 0 []).2 = hsW ∧
    ∃ g, g < hsW.courses.length ∧ resW0.course = hsW.courses.getD g [] := by
  have hmem : resW0 ∈ (hsW.queryS "hello" 10 0 []).1.1 := by
    show resW0 ∈ (hsW.query "hello" 10 0 []).1
    rw [hsW_query_eval]
    exact List.mem_cons_self _ _
  exact ⟨(C10_query_pure hsW "hello" 10 0 []).1,
    (C10_query_pure hsW "hello" 10 0 []).2 resW0 hmem⟩

end CourseSearch
